import Mathlib

/-!
Verification of the binary protocol encoder and delivery transport of the
`android-logd-logger` crate, shallowly embedded in Lean.

Machine integers are modelled as `Nat`/`Int` with explicit reductions
modulo `2^w` at the points where the Rust code truncates (`as u8`,
`as u16`, `as u32`, little-endian byte extraction).  Byte strings are
`List Nat` (each entry a byte value).  An `f32` event value is modelled
by its 32-bit pattern, since the code only ever moves its four
little-endian bytes.
-/

set_option maxRecDepth 20000

/-- Little-endian bytes of a value truncated to 16 bits (Rust `put_u16_le`). -/
def u16le (n : Nat) : List Nat :=
  [n % 256, n / 256 % 256]

/-- Little-endian bytes of a value truncated to 32 bits (Rust `put_u32_le`). -/
def u32le (n : Nat) : List Nat :=
  [n % 256, n / 256 % 256, n / 65536 % 256, n / 16777216 % 256]

/-- Little-endian bytes of a value truncated to 64 bits (Rust `put_u64_le`). -/
def u64le (n : Nat) : List Nat :=
  [n % 256, n / 256 % 256, n / 65536 % 256, n / 16777216 % 256,
   n / 4294967296 % 256, n / 1099511627776 % 256,
   n / 281474976710656 % 256, n / 72057594037927936 % 256]

/-- Two's-complement little-endian bytes of an `i32` (Rust `put_i32_le`). -/
def i32le (n : Int) : List Nat :=
  u32le (n % 4294967296).toNat

/-- Two's-complement little-endian bytes of an `i64` (Rust `put_i64_le`). -/
def i64le (n : Int) : List Nat :=
  u64le (n % 18446744073709551616).toNat

/-- `EventValue` from `src/events.rs`.  The `float` payload is the IEEE-754
bit pattern of the Rust `f32`; the `str` payload is the UTF-8 byte string. -/
inductive EventValue where
  | void : EventValue
  | int : Int → EventValue
  | long : Int → EventValue
  | float : Nat → EventValue
  | str : List Nat → EventValue
  | list : List EventValue → EventValue
deriving Repr

mutual

/-- `EventValue::serialized_size` from `src/events.rs`. -/
def EventValue.serialized_size : EventValue → Nat
  | .void => 0
  | .int _ => 1 + 4
  | .float _ => 1 + 4
  | .long _ => 1 + 8
  | .str s => 1 + 4 + s.length
  | .list l => 1 + 1 + EventValue.serialized_size_sum l

/-- Sum of the serialized sizes of a list of values
(`l.iter().map(EventValue::serialized_size).sum()`). -/
def EventValue.serialized_size_sum : List EventValue → Nat
  | [] => 0
  | v :: vs => EventValue.serialized_size v + EventValue.serialized_size_sum vs

end

mutual

/-- `EventValue::as_bytes` from `src/events.rs`.  The list element count is
written with `values.len() as u8`, hence the reduction modulo 256. -/
def EventValue.as_bytes : EventValue → List Nat
  | .void => []
  | .int n => 0 :: i32le n
  | .long n => 1 :: i64le n
  | .float b => 4 :: u32le b
  | .str s => 2 :: (u32le s.length ++ s)
  | .list l => 3 :: l.length % 256 :: EventValue.as_bytes_list l

/-- Concatenated encodings of the list elements
(`values.iter().for_each(|value| buffer.put(value.as_bytes()))`). -/
def EventValue.as_bytes_list : List EventValue → List Nat
  | [] => []
  | v :: vs => EventValue.as_bytes v ++ EventValue.as_bytes_list vs

end

mutual

/-- Byte length of the encoding of one value equals its serialized size. -/
theorem EventValue.as_bytes_length_eq (v : EventValue) :
    (EventValue.as_bytes v).length = EventValue.serialized_size v := by
  cases v with
  | void => rfl
  | int n => rfl
  | long n => rfl
  | float b => rfl
  | str s =>
    simp [EventValue.as_bytes, EventValue.serialized_size, u32le]
    omega
  | list l =>
    simp [EventValue.as_bytes, EventValue.serialized_size,
      EventValue.as_bytes_list_length_eq l]
    omega

/-- Byte length of the concatenated encodings equals the size sum. -/
theorem EventValue.as_bytes_list_length_eq (l : List EventValue) :
    (EventValue.as_bytes_list l).length = EventValue.serialized_size_sum l := by
  cases l with
  | nil => rfl
  | cons v vs =>
    simp [EventValue.as_bytes_list, EventValue.serialized_size_sum,
      EventValue.as_bytes_length_eq v, EventValue.as_bytes_list_length_eq vs]

end

/-- C1: for every `EventValue` (all variants, arbitrary nesting), the byte
length of `EventValue::as_bytes` equals `EventValue::serialized_size`. -/
theorem C1_as_bytes_length_eq_serialized_size (v : EventValue) :
    (EventValue.as_bytes v).length = EventValue.serialized_size v :=
  EventValue.as_bytes_length_eq v

/-- C9: the encoding of `EventValue::List(l)` is the fixed list tag byte 3,
one element-count byte (`values.len() as u8`, truncating), then the
concatenation of each element's own encoding in order; the wire tag byte
values are fixed at Int=0, Long=1, String=2, List=3, Float=4. -/
theorem C9_list_encoding_layout (l : List EventValue) (n m : Int) (b : Nat)
    (s : List Nat) :
    EventValue.as_bytes (.list l)
      = 3 :: l.length % 256 :: (l.map EventValue.as_bytes).flatten ∧
    (EventValue.as_bytes (.int n)).head? = some 0 ∧
    (EventValue.as_bytes (.long m)).head? = some 1 ∧
    (EventValue.as_bytes (.str s)).head? = some 2 ∧
    (EventValue.as_bytes (.list l)).head? = some 3 ∧
    (EventValue.as_bytes (.float b)).head? = some 4 := by
  refine ⟨?_, rfl, rfl, rfl, rfl, rfl⟩
  have h : ∀ vs : List EventValue,
      EventValue.as_bytes_list vs = (vs.map EventValue.as_bytes).flatten := by
    intro vs
    induction vs with
    | nil => rfl
    | cons v vs ih => simp [EventValue.as_bytes_list, ih]
  simp [EventValue.as_bytes, h l]

/-- `LOGGER_ENTRY_MAX_LEN` from `src/lib.rs`. -/
def LOGGER_ENTRY_MAX_LEN : Nat := 5 * 1024

/-- `Error` from `src/lib.rs`, restricted to the size-limit variant; the
transport variant cannot arise in `write_event_buffer` off-device. -/
inductive WriteError where
  | eventSize : WriteError
deriving DecidableEq, Repr

/-- Outcome of `write_event_buffer`: the returned result together with
whether the transport layer (`logd::write_event`) was invoked. -/
structure WriteOutcome where
  result : Option WriteError
  transportAttempted : Bool
deriving DecidableEq, Repr

/-- `Event` from `src/events.rs` (the wall-clock timestamp is irrelevant to
the size check and is omitted). -/
structure Event where
  tag : Nat
  value : EventValue

/-- `write_event_buffer` from `src/events.rs`: events whose value
serializes to more than `LOGGER_ENTRY_MAX_LEN - 1 - 2 - 4 - 4 - 4` bytes
are rejected with `Error::EventSize` before any transport call; otherwise
the event is handed to the transport and `Ok(())` is returned. -/
def write_event_buffer (e : Event) : WriteOutcome :=
  if e.value.serialized_size > LOGGER_ENTRY_MAX_LEN - 1 - 2 - 4 - 4 - 4 then
    ⟨some .eventSize, false⟩
  else
    ⟨none, true⟩

/-- `write_event` from `src/events.rs` delegates to `write_event_buffer`. -/
def write_event (e : Event) : WriteOutcome :=
  write_event_buffer e

/-- C3: an event whose value's serialized size exceeds `5120 - 15 = 5105`
bytes is rejected with the distinct size-limit error, synchronously and
with no transport attempt; an event at or under that size is never
rejected with the size-limit error. -/
theorem C3_event_size_limit (e : Event) :
    (5120 - 15 = LOGGER_ENTRY_MAX_LEN - 1 - 2 - 4 - 4 - 4) ∧
    (e.value.serialized_size > 5105 →
      write_event_buffer e = ⟨some .eventSize, false⟩ ∧
      write_event e = ⟨some .eventSize, false⟩) ∧
    (e.value.serialized_size ≤ 5105 →
      (write_event_buffer e).result = none ∧
      (write_event_buffer e).transportAttempted = true) := by
  refine ⟨rfl, ?_, ?_⟩ <;> intro h
  · have hc : e.value.serialized_size > LOGGER_ENTRY_MAX_LEN - 1 - 2 - 4 - 4 - 4 := by
      show _ > 5 * 1024 - 1 - 2 - 4 - 4 - 4
      omega
    simp [write_event, write_event_buffer, hc]
  · have hc : ¬ e.value.serialized_size > LOGGER_ENTRY_MAX_LEN - 1 - 2 - 4 - 4 - 4 := by
      show ¬ _ > 5 * 1024 - 1 - 2 - 4 - 4 - 4
      omega
    simp [write_event_buffer, hc]

/-- C3 witness: a 5101-byte string value (size `5106 > 5105`) is rejected
without a transport attempt, and a small value passes the size check. -/
theorem C3_event_size_limit_witness :
    write_event_buffer ⟨1, .str (List.replicate 5101 97)⟩
      = ⟨some .eventSize, false⟩ ∧
    (write_event_buffer ⟨1, .str [116, 101, 115, 116]⟩).result = none := by
  constructor
  · refine ((C3_event_size_limit ⟨1, .str (List.replicate 5101 97)⟩).2.1 ?_).1
    show EventValue.serialized_size (.str (List.replicate 5101 97)) > 5105
    rw [EventValue.serialized_size, List.length_replicate]
    omega
  · refine ((C3_event_size_limit ⟨1, .str [116, 101, 115, 116]⟩).2.2 ?_).1
    show EventValue.serialized_size (.str [116, 101, 115, 116]) ≤ 5105
    rw [EventValue.serialized_size]
    simp

/-- Kind of an `io::Error`: the code in `LogdSocket::send` distinguishes
only `WouldBlock` from every other kind. -/
inductive ErrKind where
  | wouldBlock : ErrKind
  | other : ErrKind
deriving DecidableEq, Repr

/-- An `io::Error`, identified by its kind and an identity code so that
propagation of a particular error can be stated. -/
structure IoError where
  kind : ErrKind
  code : Nat
deriving DecidableEq, Repr

/-- Outcomes of the fallible operations performed by `LogdSocket::send`
(`src/logd.rs`), in program order: the first `send`, then on the recovery
path `UnixDatagram::unbound`, `connect`, `set_nonblocking` and the retry
`send`.  `none` means the operation succeeds. -/
structure SendEnv where
  firstSend : Option IoError
  unbound : Option IoError
  conn : Option IoError
  setNonblocking : Option IoError
  retrySend : Option IoError
deriving DecidableEq, Repr

/-- Observable trace of one `LogdSocket::send` call: the returned result,
how many sockets were created, how many connect attempts and retry sends
were made, and whether the shared socket handle was replaced. -/
structure SendTrace where
  result : Option IoError
  socketsCreated : Nat
  connectAttempts : Nat
  retrySends : Nat
  socketReplaced : Bool
deriving DecidableEq, Repr

/-- `LogdSocket::send` from `src/logd.rs`: a successful first send returns
`Ok`; a `WouldBlock` failure is discarded and `Ok` is returned; any other
failure creates a new socket, connects it, makes it non-blocking, retries
the send once, and replaces the shared handle only when all of that
succeeded, propagating the first failing step's error otherwise. -/
def LogdSocket.send (env : SendEnv) : SendTrace :=
  match env.firstSend with
  | none => ⟨none, 0, 0, 0, false⟩
  | some e =>
    match e.kind with
    | .wouldBlock => ⟨none, 0, 0, 0, false⟩
    | .other =>
      match env.unbound with
      | some e2 => ⟨some e2, 0, 0, 0, false⟩
      | none =>
        match env.conn with
        | some e3 => ⟨some e3, 1, 1, 0, false⟩
        | none =>
          match env.setNonblocking with
          | some e4 => ⟨some e4, 1, 1, 0, false⟩
          | none =>
            match env.retrySend with
            | some e5 => ⟨some e5, 1, 1, 1, false⟩
            | none => ⟨none, 1, 1, 1, true⟩

/-- C4: a first send failing with `WouldBlock` makes `LogdSocket::send`
return `Ok(())`, creating no socket, attempting no reconnect and no retry,
and leaving the shared handle untouched. -/
theorem C4_would_block_discard (env : SendEnv) (e : IoError)
    (h1 : env.firstSend = some e) (h2 : e.kind = .wouldBlock) :
    LogdSocket.send env = ⟨none, 0, 0, 0, false⟩ := by
  simp [LogdSocket.send, h1, h2]

/-- C4 witness: a concrete `WouldBlock` first failure is discarded. -/
theorem C4_would_block_discard_witness :
    LogdSocket.send ⟨some ⟨.wouldBlock, 11⟩, none, none, none, none⟩
      = ⟨none, 0, 0, 0, false⟩ :=
  C4_would_block_discard _ ⟨.wouldBlock, 11⟩ rfl rfl

/-- C5: on a hard (non-`WouldBlock`) first-send failure, `LogdSocket::send`
performs at most one socket creation, one connect and one retry send; when
socket creation, connect, `set_nonblocking` and the retry all succeed it
replaces the shared handle and returns `Ok`; any returned error is the
error of the failed reconnect step or failed retry. -/
theorem C5_hard_error_reconnect_retry (env : SendEnv) (e : IoError)
    (h1 : env.firstSend = some e) (h2 : e.kind ≠ .wouldBlock) :
    (LogdSocket.send env).socketsCreated ≤ 1 ∧
    (LogdSocket.send env).connectAttempts ≤ 1 ∧
    (LogdSocket.send env).retrySends ≤ 1 ∧
    (env.unbound = none → env.conn = none → env.setNonblocking = none →
      env.retrySend = none → LogdSocket.send env = ⟨none, 1, 1, 1, true⟩) ∧
    (∀ err, (LogdSocket.send env).result = some err →
      env.unbound = some err ∨ env.conn = some err ∨
      env.setNonblocking = some err ∨ env.retrySend = some err) := by
  have hk : e.kind = .other := by cases hek : e.kind with
    | wouldBlock => exact absurd hek h2
    | other => rfl
  cases hu : env.unbound with
  | some e2 => simp [LogdSocket.send, h1, hk, hu]
  | none =>
    cases hc : env.conn with
    | some e3 => simp [LogdSocket.send, h1, hk, hu, hc]
    | none =>
      cases hs : env.setNonblocking with
      | some e4 => simp [LogdSocket.send, h1, hk, hu, hc, hs]
      | none =>
        cases hr : env.retrySend with
        | some e5 => simp [LogdSocket.send, h1, hk, hu, hc, hs, hr]
        | none => simp [LogdSocket.send, h1, hk, hu, hc, hs, hr]

/-- C5 witness: a concrete connection-refused first failure followed by a
fully successful reconnect ends in `Ok` with the handle replaced after
exactly one socket creation, one connect and one retry send. -/
theorem C5_hard_error_reconnect_retry_witness :
    LogdSocket.send ⟨some ⟨.other, 111⟩, none, none, none, none⟩
      = ⟨none, 1, 1, 1, true⟩ :=
  (C5_hard_error_reconnect_retry ⟨some ⟨.other, 111⟩, none, none, none, none⟩
      ⟨.other, 111⟩ rfl (by simp)).2.2.2.1 rfl rfl rfl rfl

/-- C10: the `WouldBlock` silent-discard policy applies only to the first
send: if after a hard first failure the reconnect succeeds but the retry
send fails with a `WouldBlock` error, that error is propagated to the
caller and the new socket does not replace the shared handle. -/
theorem C10_retry_would_block_propagates (env : SendEnv) (e f : IoError)
    (h1 : env.firstSend = some e) (h2 : e.kind ≠ .wouldBlock)
    (h3 : env.unbound = none) (h4 : env.conn = none)
    (h5 : env.setNonblocking = none) (h6 : env.retrySend = some f)
    (_h7 : f.kind = .wouldBlock) :
    (LogdSocket.send env).result = some f ∧
    (LogdSocket.send env).socketReplaced = false := by
  have hk : e.kind = .other := by cases hek : e.kind with
    | wouldBlock => exact absurd hek h2
    | other => rfl
  simp [LogdSocket.send, h1, hk, h3, h4, h5, h6]

/-- C10 witness: a concrete broken-pipe first failure with a `WouldBlock`
retry failure propagates the retry error and keeps the old handle. -/
theorem C10_retry_would_block_propagates_witness :
    (LogdSocket.send ⟨some ⟨.other, 32⟩, none, none, none,
        some ⟨.wouldBlock, 11⟩⟩).result = some ⟨.wouldBlock, 11⟩ ∧
    (LogdSocket.send ⟨some ⟨.other, 32⟩, none, none, none,
        some ⟨.wouldBlock, 11⟩⟩).socketReplaced = false :=
  C10_retry_would_block_propagates _ ⟨.other, 32⟩ ⟨.wouldBlock, 11⟩
    rfl (by simp) rfl rfl rfl rfl rfl

/-- A UTF-8 continuation byte (`0x80..=0xBF`); Rust's
`str::is_char_boundary` tests `(b as i8) >= -0x40`, i.e. not-continuation. -/
def isCont (b : Nat) : Bool :=
  128 ≤ b && b < 192

/-- Rust `str::is_char_boundary` on a byte string: index 0 and the length
itself are boundaries, and an interior index is a boundary exactly when
its byte is not a continuation byte. -/
def isCharBoundary (data : List Nat) (idx : Nat) : Bool :=
  if idx = 0 then true
  else
    match data.get? idx with
    | none => decide (idx = data.length)
    | some b => !isCont b

/-- `find_char_boundary_before_idx` from `src/logging_iterator.rs`: walk
down from `idx` until a char boundary is found, stopping at 0. -/
def find_char_boundary_before_idx (data : List Nat) : Nat → Nat
  | 0 => 0
  | i + 1 =>
    if isCharBoundary data (i + 1) then i + 1
    else if i = 0 then 0 else find_char_boundary_before_idx data i

/-- Rust `str::rfind('\n')` on a byte string: index of the last byte equal
to 10, if any.  (In UTF-8 the byte 10 occurs only as the newline
character.) -/
def rfind_newline : List Nat → Option Nat
  | [] => none
  | b :: rest =>
    match rfind_newline rest with
    | some i => some (i + 1)
    | none => if b = 10 then some 0 else none

/-- One step of `NewlineScaledChunkIterator::next` from
`src/logging_iterator.rs`: `none` when the data is exhausted, otherwise
the yielded piece and the remainder left in the iterator. -/
def chunkNext (data : List Nat) (maxByteLength : Nat) : Option (List Nat × List Nat) :=
  if data.length = 0 then none
  else if data.length < maxByteLength then some (data, [])
  else
    let splitIdx0 := find_char_boundary_before_idx data maxByteLength
    let splitIdx :=
      match rfind_newline (data.take splitIdx0) with
      | some byteIdx => byteIdx + 1
      | none => splitIdx0
    some (data.take splitIdx, data.drop splitIdx)

/-- Run the iterator for at most `fuel` steps, returning the pieces
yielded and the data still held by the iterator. -/
def chunkRun : Nat → List Nat → Nat → List (List Nat) × List Nat
  | 0, data, _ => ([], data)
  | fuel + 1, data, maxByteLength =>
    match chunkNext data maxByteLength with
    | none => ([], data)
    | some (piece, rest) =>
      let r := chunkRun fuel rest maxByteLength
      (piece :: r.1, r.2)

/-- The iteration terminates: some finite number of steps exhausts the
iterator's data (equivalently, the yielded sequence is finite). -/
def chunkTerminates (data : List Nat) (maxByteLength : Nat) : Prop :=
  ∃ fuel, (chunkRun fuel data maxByteLength).2 = []

/-- Modelled from the spec: byte length of the UTF-8 character led by byte
`b` ("never inside a multi-byte code point" presumes the data is a valid
UTF-8 string, which Rust's `str` type guarantees). -/
def charLen (b : Nat) : Nat :=
  if b < 128 then 1 else if b < 224 then 2 else if b < 240 then 3 else 4

/-- Modelled from the spec: the byte string is a sequence of UTF-8
characters, with `k` continuation bytes of the current character still
expected.  A lead byte must not be a continuation byte and announces
`charLen b - 1` continuation bytes. -/
def validShapeAux : List Nat → Nat → Bool
  | [], 0 => true
  | [], _ + 1 => false
  | b :: rest, 0 => !isCont b && validShapeAux rest (charLen b - 1)
  | b :: rest, k + 1 => isCont b && validShapeAux rest k

/-- The byte string is a well-formed sequence of UTF-8 characters (the
invariant Rust's `str` provides for `NewlineScaledChunkIterator`'s data). -/
def validShape (data : List Nat) : Bool :=
  validShapeAux data 0

theorem charLen_pos (b : Nat) : 1 ≤ charLen b := by
  unfold charLen
  split <;> [omega; split <;> [omega; split <;> omega]]

theorem charLen_le_four (b : Nat) : charLen b ≤ 4 := by
  unfold charLen
  split <;> [omega; split <;> [omega; split <;> omega]]

theorem validShapeAux_le_length (l : List Nat) :
    ∀ k, validShapeAux l k = true → k ≤ l.length := by
  induction l with
  | nil => intro k h; cases k with
    | zero => simp
    | succ j => simp [validShapeAux] at h
  | cons b rest ih =>
    intro k h
    cases k with
    | zero => simp
    | succ j =>
      simp only [validShapeAux, Bool.and_eq_true] at h
      have := ih j h.2
      simp only [List.length_cons]
      omega

theorem validShapeAux_drop (l : List Nat) :
    ∀ k, validShapeAux l k = true → validShape (l.drop k) = true := by
  induction l with
  | nil => intro k h; cases k with
    | zero => simpa [validShape] using h
    | succ j => simp [validShapeAux] at h
  | cons b rest ih =>
    intro k h
    cases k with
    | zero => simpa [validShape] using h
    | succ j =>
      simp only [validShapeAux, Bool.and_eq_true] at h
      simpa using ih j h.2

theorem validShape_cons (b : Nat) (rest : List Nat)
    (h : validShape (b :: rest) = true) :
    isCont b = false ∧ validShapeAux rest (charLen b - 1) = true := by
  simp only [validShape, validShapeAux, Bool.and_eq_true, Bool.not_eq_true'] at h
  exact h

theorem validShapeAux_get_cont (l : List Nat) :
    ∀ k, validShapeAux l k = true →
      ∀ j, j < k → ∃ c, l.get? j = some c ∧ isCont c = true := by
  induction l with
  | nil => intro k h j hj; cases k with
    | zero => omega
    | succ _ => simp [validShapeAux] at h
  | cons b rest ih =>
    intro k h j hj
    cases k with
    | zero => omega
    | succ k' =>
      simp only [validShapeAux, Bool.and_eq_true] at h
      cases j with
      | zero => exact ⟨b, rfl, h.1⟩
      | succ m => exact ih k' h.2 m (by omega)

theorem isCharBoundary_zero (data : List Nat) : isCharBoundary data 0 = true := by
  simp [isCharBoundary]

theorem isCharBoundary_length (data : List Nat) :
    isCharBoundary data data.length = true := by
  unfold isCharBoundary
  cases h : data.length with
  | zero => simp
  | succ n =>
    have hg : data.get? (n + 1) = none := by
      rw [List.get?_eq_none]
      omega
    rw [List.get?_eq_getElem?] at hg
    simp [hg]

theorem isCharBoundary_of_noncont (data : List Nat) (i c : Nat)
    (hg : data.get? i = some c) (hc : isCont c = false) :
    isCharBoundary data i = true := by
  unfold isCharBoundary
  cases hi : i with
  | zero => simp
  | succ m => rw [← hi, hg]; simp [hc]

theorem validShape_first_char_boundary (b : Nat) (rest : List Nat)
    (hv : validShape (b :: rest) = true) :
    isCharBoundary (b :: rest) (charLen b) = true := by
  obtain ⟨-, haux⟩ := validShape_cons b rest hv
  have hk : charLen b - 1 ≤ rest.length := validShapeAux_le_length rest _ haux
  rcases Nat.lt_or_ge (charLen b - 1) rest.length with hlt | hge
  · have hvd := validShapeAux_drop rest _ haux
    cases hd : rest.drop (charLen b - 1) with
    | nil =>
      have := congrArg List.length hd
      simp [List.length_drop] at this
      omega
    | cons c r =>
      rw [hd] at hvd
      obtain ⟨hcnc, -⟩ := validShape_cons c r hvd
      have hgc : rest.get? (charLen b - 1) = some c := by
        have h0 : (rest.drop (charLen b - 1)).get? 0 = rest.get? (charLen b - 1 + 0) :=
          List.get?_drop rest (charLen b - 1) 0
        rw [hd] at h0
        simpa using h0.symm
      have hL : charLen b = (charLen b - 1) + 1 := by
        have := charLen_pos b
        omega
      apply isCharBoundary_of_noncont (b :: rest) (charLen b) c _ hcnc
      rw [hL, List.get?_cons_succ]
      exact hgc
  · have hlen : charLen b = (b :: rest).length := by
      have := charLen_pos b
      simp only [List.length_cons]
      omega
    rw [hlen]
    exact isCharBoundary_length _

theorem fcb_le (data : List Nat) (idx : Nat) :
    find_char_boundary_before_idx data idx ≤ idx := by
  induction idx with
  | zero => simp [find_char_boundary_before_idx]
  | succ i ih =>
    unfold find_char_boundary_before_idx
    split
    · omega
    · split
      · omega
      · omega

theorem fcb_isBoundary (data : List Nat) (idx : Nat) :
    isCharBoundary data (find_char_boundary_before_idx data idx) = true := by
  induction idx with
  | zero => simpa [find_char_boundary_before_idx] using isCharBoundary_zero data
  | succ i ih =>
    unfold find_char_boundary_before_idx
    split
    · assumption
    · split
      · exact isCharBoundary_zero data
      · exact ih

theorem fcb_ge (data : List Nat) (idx k : Nat)
    (hb : isCharBoundary data k = true) (hk : k ≤ idx) :
    k ≤ find_char_boundary_before_idx data idx := by
  induction idx with
  | zero => simpa [find_char_boundary_before_idx] using hk
  | succ i ih =>
    unfold find_char_boundary_before_idx
    split
    · omega
    · rename_i hnb
      have hki : k ≤ i := by
        rcases Nat.lt_or_ge k (i + 1) with h | h
        · omega
        · exfalso
          have : k = i + 1 := by omega
          rw [this] at hb
          exact hnb hb
      split
      · omega
      · exact ih hki

theorem isCharBoundary_drop (data : List Nat) (L m : Nat)
    (hL : L ≤ data.length) (hm : 1 ≤ m) :
    isCharBoundary (data.drop L) m = isCharBoundary data (L + m) := by
  unfold isCharBoundary
  have h1 : ¬ m = 0 := by omega
  have h2 : ¬ L + m = 0 := by omega
  rw [if_neg h1, if_neg h2, List.get?_drop]
  cases hg : data.get? (L + m) with
  | some c => rfl
  | none =>
    simp only [List.length_drop]
    rw [decide_eq_decide]
    omega

theorem validShapeAux_take (l : List Nat) :
    ∀ k, validShapeAux l k = true → validShapeAux (l.take k) k = true := by
  induction l with
  | nil => intro k h; cases k with
    | zero => simpa using h
    | succ j => simp [validShapeAux] at h
  | cons b rest ih =>
    intro k h
    cases k with
    | zero => simp [validShapeAux]
    | succ j =>
      simp only [validShapeAux, Bool.and_eq_true] at h
      simp only [List.take_succ_cons, validShapeAux, Bool.and_eq_true]
      exact ⟨h.1, ih j h.2⟩

theorem validShapeAux_append (xs ys : List Nat) (hy : validShape ys = true) :
    ∀ k, validShapeAux xs k = true → validShapeAux (xs ++ ys) k = true := by
  induction xs with
  | nil => intro k h; cases k with
    | zero => simpa using hy
    | succ j => simp [validShapeAux] at h
  | cons b rest ih =>
    intro k h
    cases k with
    | zero =>
      simp only [validShapeAux, Bool.and_eq_true] at h
      simp only [List.cons_append, validShapeAux, Bool.and_eq_true]
      exact ⟨h.1, ih _ h.2⟩
    | succ j =>
      simp only [validShapeAux, Bool.and_eq_true] at h
      simp only [List.cons_append, validShapeAux, Bool.and_eq_true]
      exact ⟨h.1, ih _ h.2⟩

theorem validShape_splitAt :
    ∀ (n : Nat) (data : List Nat), data.length ≤ n →
      validShape data = true → ∀ i, isCharBoundary data i = true →
      i ≤ data.length →
      validShape (data.take i) = true ∧ validShape (data.drop i) = true := by
  intro n
  induction n with
  | zero =>
    intro data hn _ i _ hi
    have : data = [] := List.eq_nil_of_length_eq_zero (by omega)
    subst this
    have : i = 0 := by simpa using hi
    subst this
    simp [validShape, validShapeAux]
  | succ n ih =>
    intro data hn hv i hb hi
    cases data with
    | nil =>
      have : i = 0 := by simpa using hi
      subst this
      simp [validShape, validShapeAux]
    | cons b rest =>
      obtain ⟨hnc, haux⟩ := validShape_cons b rest hv
      have hL1 := charLen_pos b
      have hkr : charLen b - 1 ≤ rest.length := validShapeAux_le_length rest _ haux
      rcases Nat.lt_or_ge i (charLen b) with hiL | hiL
      · -- i = 0 or i inside the first character: the latter contradicts hb
        cases hi0 : i with
        | zero =>
          subst hi0
          exact ⟨rfl, hv⟩
        | succ m =>
          exfalso
          subst hi0
          obtain ⟨c, hgc, hcc⟩ :=
            validShapeAux_get_cont rest _ haux m (by omega)
          have hgd : (b :: rest).get? (m + 1) = some c := by
            rw [List.get?_cons_succ]; exact hgc
          unfold isCharBoundary at hb
          rw [if_neg (by omega), hgd] at hb
          simp [hcc] at hb
      · -- i at or past the end of the first character
        obtain ⟨k, hk⟩ : ∃ k, charLen b = k + 1 := ⟨charLen b - 1, by omega⟩
        have hk1 : charLen b - 1 = k := by omega
        have haux' : validShapeAux rest k = true := hk1 ▸ haux
        have hdropL : (b :: rest).drop (charLen b) = rest.drop (charLen b - 1) := by
          rw [hk, List.drop_succ_cons, Nat.add_sub_cancel]
        have hvd : validShape ((b :: rest).drop (charLen b)) = true := by
          rw [hdropL]; exact validShapeAux_drop rest _ haux
        have hlend : ((b :: rest).drop (charLen b)).length ≤ n := by
          rw [List.length_drop]
          simp only [List.length_cons] at hn ⊢
          omega
        have hLlen : charLen b ≤ (b :: rest).length := by
          simp only [List.length_cons]
          omega
        have hb' : isCharBoundary ((b :: rest).drop (charLen b)) (i - charLen b) = true := by
          rcases Nat.eq_or_lt_of_le hiL with heq | hlt
          · rw [← heq]
            simpa using isCharBoundary_zero _
          · rw [isCharBoundary_drop _ _ _ hLlen (by omega)]
            have : charLen b + (i - charLen b) = i := by omega
            rw [this]
            exact hb
        have hi' : i - charLen b ≤ ((b :: rest).drop (charLen b)).length := by
          rw [List.length_drop]
          omega
        obtain ⟨htk, hdr⟩ := ih _ hlend hvd _ hb' hi'
        constructor
        · have hta : (b :: rest).take i
              = (b :: rest).take (charLen b) ++ ((b :: rest).drop (charLen b)).take (i - charLen b) := by
            have : i = charLen b + (i - charLen b) := by omega
            rw [this, List.take_add]
            congr 2
            omega
          rw [hta]
          have htake1 : validShapeAux ((b :: rest).take (charLen b)) 0 = true := by
            rw [hk, List.take_succ_cons]
            have hunfold : validShapeAux (b :: rest.take k) 0
                = (!isCont b && validShapeAux (rest.take k) (charLen b - 1)) := rfl
            rw [hunfold, hnc, hk1]
            simpa using validShapeAux_take rest k haux'
          exact validShapeAux_append _ _ htk 0 htake1
        · have : (b :: rest).drop i
              = ((b :: rest).drop (charLen b)).drop (i - charLen b) := by
            rw [List.drop_drop]
            congr 1
            omega
          rw [this]
          exact hdr

/-- In a well-formed UTF-8 byte string, the position right after a one-byte
character (such as the newline byte 10) is a character boundary. -/
theorem isCharBoundary_after_ascii :
    ∀ (n : Nat) (data : List Nat), data.length ≤ n →
      validShape data = true → ∀ j c, data.get? j = some c → c < 128 →
      isCharBoundary data (j + 1) = true := by
  intro n
  induction n with
  | zero =>
    intro data hn _ j c hg _
    have : data = [] := List.eq_nil_of_length_eq_zero (by omega)
    subst this
    simp at hg
  | succ n ih =>
    intro data hn hv j c hg hc
    cases data with
    | nil => simp at hg
    | cons b rest =>
      obtain ⟨hnc, haux⟩ := validShape_cons b rest hv
      have hL1 := charLen_pos b
      rcases Nat.lt_or_ge j (charLen b) with hjL | hjL
      · cases hj0 : j with
        | zero =>
          subst hj0
          have hbc : b = c := by simpa using hg
          subst hbc
          have hch : charLen b = 1 := by unfold charLen; rw [if_pos hc]
          have := validShape_first_char_boundary b rest hv
          rwa [hch] at this
        | succ m =>
          exfalso
          subst hj0
          obtain ⟨d, hgd, hdc⟩ :=
            validShapeAux_get_cont rest _ haux m (by omega)
          rw [List.get?_cons_succ, hgd] at hg
          have : d = c := by simpa using hg
          subst this
          simp [isCont] at hdc
          omega
      · obtain ⟨k, hk⟩ : ∃ k, charLen b = k + 1 := ⟨charLen b - 1, by omega⟩
        have hk1 : charLen b - 1 = k := by omega
        have haux' : validShapeAux rest k = true := hk1 ▸ haux
        have hdropL : (b :: rest).drop (charLen b) = rest.drop k := by
          rw [hk, List.drop_succ_cons]
        have hvd : validShape ((b :: rest).drop (charLen b)) = true := by
          rw [hdropL]; exact validShapeAux_drop rest _ haux'
        have hjlen : j < (b :: rest).length := by
          have := List.get?_eq_some.mp hg
          exact this.1
        have hLlen : charLen b ≤ (b :: rest).length := by omega
        have hlend : ((b :: rest).drop (charLen b)).length ≤ n := by
          rw [List.length_drop]
          simp only [List.length_cons] at hn ⊢
          omega
        have hg' : ((b :: rest).drop (charLen b)).get? (j - charLen b) = some c := by
          rw [List.get?_drop]
          have : charLen b + (j - charLen b) = j := by omega
          rw [this]
          exact hg
        have hb' := ih _ hlend hvd _ c hg' hc
        rw [isCharBoundary_drop _ _ _ hLlen (by omega)] at hb'
        have : charLen b + (j - charLen b + 1) = j + 1 := by omega
        rwa [this] at hb'

theorem rfind_newline_mem (l : List Nat) :
    ∀ j, rfind_newline l = some j → l.get? j = some 10 := by
  induction l with
  | nil => intro j h; simp [rfind_newline] at h
  | cons b rest ih =>
    intro j h
    unfold rfind_newline at h
    cases hr : rfind_newline rest with
    | some i =>
      rw [hr] at h
      have : j = i + 1 := by simpa using h.symm
      subst this
      rw [List.get?_cons_succ]
      exact ih i hr
    | none =>
      rw [hr] at h
      by_cases hb : b = 10
      · rw [if_pos hb] at h
        have : j = 0 := by simpa using h.symm
        subst this
        simp [hb]
      · rw [if_neg hb] at h
        simp at h

theorem rfind_newline_lt_length (l : List Nat) (j : Nat)
    (h : rfind_newline l = some j) : j < l.length :=
  (List.get?_eq_some.mp (rfind_newline_mem l j h)).1

theorem rfind_newline_none (l : List Nat) (h : rfind_newline l = none) :
    ∀ k, l.get? k ≠ some 10 := by
  induction l with
  | nil => intro k; simp
  | cons b rest ih =>
    intro k
    unfold rfind_newline at h
    cases hr : rfind_newline rest with
    | some i => rw [hr] at h; simp at h
    | none =>
      rw [hr] at h
      by_cases hb : b = 10
      · rw [if_pos hb] at h; simp at h
      · rw [if_neg hb] at h
        cases k with
        | zero => simpa using hb
        | succ m => rw [List.get?_cons_succ]; exact ih hr m

theorem rfind_newline_last (l : List Nat) :
    ∀ j, rfind_newline l = some j → ∀ k, j < k → l.get? k ≠ some 10 := by
  induction l with
  | nil => intro j h; simp [rfind_newline] at h
  | cons b rest ih =>
    intro j h k hk
    unfold rfind_newline at h
    cases hr : rfind_newline rest with
    | some i =>
      rw [hr] at h
      have : j = i + 1 := by simpa using h.symm
      subst this
      cases k with
      | zero => omega
      | succ m =>
        rw [List.get?_cons_succ]
        exact ih i hr m (by omega)
    | none =>
      rw [hr] at h
      by_cases hb : b = 10
      · rw [if_pos hb] at h
        have : j = 0 := by simpa using h.symm
        subst this
        cases k with
        | zero => omega
        | succ m => rw [List.get?_cons_succ]; exact rfind_newline_none rest hr m
      · rw [if_neg hb] at h
        simp at h

/-- The byte index at which `NewlineScaledChunkIterator::next` splits
oversized data: after the last newline in the first
`find_char_boundary_before_idx` bytes if one exists, otherwise at that
boundary itself. -/
def splitIndex (data : List Nat) (maxB : Nat) : Nat :=
  match rfind_newline (data.take (find_char_boundary_before_idx data maxB)) with
  | some byteIdx => byteIdx + 1
  | none => find_char_boundary_before_idx data maxB

theorem chunkNext_eq_split (data : List Nat) (maxB : Nat)
    (h0 : ¬ data.length = 0) (h1 : ¬ data.length < maxB) :
    chunkNext data maxB
      = some (data.take (splitIndex data maxB), data.drop (splitIndex data maxB)) := by
  unfold chunkNext splitIndex
  rw [if_neg h0, if_neg h1]

theorem splitIndex_le (data : List Nat) (maxB : Nat) :
    splitIndex data maxB ≤ maxB := by
  unfold splitIndex
  cases hrf : rfind_newline (data.take (find_char_boundary_before_idx data maxB)) with
  | none => exact fcb_le data maxB
  | some j =>
    have hlt := rfind_newline_lt_length _ j hrf
    rw [List.length_take] at hlt
    have := fcb_le data maxB
    show j + 1 ≤ maxB
    omega

theorem splitIndex_isBoundary (data : List Nat) (maxB : Nat)
    (hv : validShape data = true) :
    isCharBoundary data (splitIndex data maxB) = true := by
  unfold splitIndex
  cases hrf : rfind_newline (data.take (find_char_boundary_before_idx data maxB)) with
  | none => exact fcb_isBoundary data maxB
  | some j =>
    have hmem := rfind_newline_mem _ j hrf
    have hlt := rfind_newline_lt_length _ j hrf
    rw [List.length_take] at hlt
    rw [List.get?_take (by omega)] at hmem
    exact isCharBoundary_after_ascii data.length data le_rfl hv j 10 hmem (by omega)

theorem splitIndex_pos (data : List Nat) (maxB : Nat)
    (hv : validShape data = true) (h4 : 4 ≤ maxB) (hne : data ≠ []) :
    1 ≤ splitIndex data maxB := by
  unfold splitIndex
  cases hrf : rfind_newline (data.take (find_char_boundary_before_idx data maxB)) with
  | some j =>
    show 1 ≤ j + 1
    omega
  | none =>
    show 1 ≤ find_char_boundary_before_idx data maxB
    cases data with
    | nil => exact absurd rfl hne
    | cons b rest =>
      have hbd := validShape_first_char_boundary b rest hv
      have h1 := charLen_pos b
      have h2 := charLen_le_four b
      have := fcb_ge (b :: rest) maxB (charLen b) hbd (by omega)
      omega

theorem chunkNext_step (data : List Nat) (maxB : Nat)
    (hv : validShape data = true) (h4 : 4 ≤ maxB) (hne : data ≠ []) :
    ∃ piece rest, chunkNext data maxB = some (piece, rest) ∧
      piece ≠ [] ∧ piece ++ rest = data ∧ piece.length ≤ maxB ∧
      validShape piece = true ∧ validShape rest = true ∧
      rest.length < data.length := by
  have hlen0 : ¬ data.length = 0 := by
    intro h
    exact hne (List.eq_nil_of_length_eq_zero h)
  rcases Nat.lt_or_ge data.length maxB with hsmall | hbig
  · refine ⟨data, [], ?_, hne, List.append_nil data, by omega, hv, rfl, ?_⟩
    · unfold chunkNext
      rw [if_neg hlen0, if_pos hsmall]
    · simp only [List.length_nil]
      omega
  · have h1 : ¬ data.length < maxB := by omega
    have hsi1 := splitIndex_pos data maxB hv h4 hne
    have hsile := splitIndex_le data maxB
    have hsilen : splitIndex data maxB ≤ data.length := by omega
    obtain ⟨htk, hdr⟩ := validShape_splitAt data.length data le_rfl hv
      (splitIndex data maxB) (splitIndex_isBoundary data maxB hv) hsilen
    refine ⟨data.take (splitIndex data maxB), data.drop (splitIndex data maxB),
      chunkNext_eq_split data maxB hlen0 h1, ?_, List.take_append_drop _ _, ?_, htk, hdr, ?_⟩
    · intro hempty
      have hlt := congrArg List.length hempty
      rw [List.length_take, List.length_nil] at hlt
      rcases Nat.min_eq_zero_iff.mp hlt with h | h <;> omega
    · rw [List.length_take]
      exact le_trans (Nat.min_le_left _ _) hsile
    · rw [List.length_drop]
      omega

theorem chunkRun_nil (fuel maxB : Nat) : chunkRun fuel [] maxB = ([], []) := by
  cases fuel with
  | zero => rfl
  | succ f => simp [chunkRun, chunkNext]

theorem chunkRun_correct_aux :
    ∀ (n : Nat) (data : List Nat) (fuel maxB : Nat), data.length ≤ n →
      data.length ≤ fuel → validShape data = true → 4 ≤ maxB →
      (chunkRun fuel data maxB).2 = [] ∧
      (chunkRun fuel data maxB).1.flatten = data ∧
      (∀ p ∈ (chunkRun fuel data maxB).1,
        p.length ≤ maxB ∧ p ≠ [] ∧ validShape p = true) := by
  intro n
  induction n with
  | zero =>
    intro data fuel maxB hn _ _ _
    have : data = [] := List.eq_nil_of_length_eq_zero (by omega)
    subst this
    rw [chunkRun_nil]
    exact ⟨rfl, rfl, by simp⟩
  | succ n ih =>
    intro data fuel maxB hn hfuel hv h4
    cases hd : data with
    | nil =>
      rw [chunkRun_nil]
      exact ⟨rfl, rfl, by simp⟩
    | cons b rest0 =>
      rw [← hd]
      have hne : data ≠ [] := by rw [hd]; simp
      have hlen1 : 1 ≤ data.length := by rw [hd]; simp
      obtain ⟨fuel', hfe⟩ : ∃ f, fuel = f + 1 := ⟨fuel - 1, by omega⟩
      subst hfe
      obtain ⟨p, rest, hnext, hpne, happ, hple, hpv, hrv, hrlt⟩ :=
        chunkNext_step data maxB hv h4 hne
      have hrn : rest.length ≤ n := by omega
      have hrf : rest.length ≤ fuel' := by omega
      obtain ⟨ih1, ih2, ih3⟩ := ih rest fuel' maxB hrn hrf hrv h4
      have hrun : chunkRun (fuel' + 1) data maxB
          = (p :: (chunkRun fuel' rest maxB).1, (chunkRun fuel' rest maxB).2) := by
        simp [chunkRun, hnext]
      rw [hrun]
      refine ⟨ih1, ?_, ?_⟩
      · simp only [List.flatten_cons, ih2]
        exact happ
      · intro q hq
        rcases List.mem_cons.mp hq with hq1 | hq2
        · subst hq1
          exact ⟨hple, hpne, hpv⟩
        · exact ih3 q hq2

/-- C2 (amended): for every valid UTF-8 byte string and every maximum byte
length of at least 4 (enough to contain any UTF-8 character), the iterator
exhausts its data within `length` steps (the yielded sequence is finite),
the concatenation of the yielded pieces reconstructs the input exactly,
every piece is at most `max` bytes long, no piece is empty (in particular
the empty string yields no pieces), and every piece is itself well-formed
UTF-8 (no piece ends inside a multi-byte character). -/
theorem C2_chunk_iterator_reconstructs (data : List Nat) (maxB : Nat)
    (hv : validShape data = true) (h4 : 4 ≤ maxB) :
    (chunkRun data.length data maxB).2 = [] ∧
    (chunkRun data.length data maxB).1.flatten = data ∧
    (∀ p ∈ (chunkRun data.length data maxB).1,
      p.length ≤ maxB ∧ p ≠ [] ∧ validShape p = true) ∧
    (chunkRun ([] : List Nat).length [] maxB).1 = [] :=
  ⟨(chunkRun_correct_aux data.length data data.length maxB le_rfl le_rfl hv h4).1,
   (chunkRun_correct_aux data.length data data.length maxB le_rfl le_rfl hv h4).2.1,
   (chunkRun_correct_aux data.length data data.length maxB le_rfl le_rfl hv h4).2.2,
   by rw [chunkRun_nil]⟩

/-- C2 witness: the three-byte string `"abc"` with maximum length 10 is
yielded as the single piece `"abc"`, and the empty string yields no
pieces. -/
theorem C2_chunk_iterator_reconstructs_witness :
    (chunkRun 3 [97, 98, 99] 10).2 = [] ∧
    (chunkRun 3 [97, 98, 99] 10).1.flatten = [97, 98, 99] ∧
    (chunkRun 0 ([] : List Nat) 10).1 = [] := by
  have h := C2_chunk_iterator_reconstructs [97, 98, 99] 10 (by decide) (by decide)
  exact ⟨h.1, h.2.1, h.2.2.2⟩

theorem chunkRun_stuck_on_wide_char (fuel : Nat) :
    (chunkRun fuel [195, 169] 1).2 = [195, 169] := by
  induction fuel with
  | zero => rfl
  | succ f ih =>
    have h : chunkNext [195, 169] 1 = some ([], [195, 169]) := by decide
    simp [chunkRun, h, ih]

/-- C2 counterexample: on the valid one-character UTF-8 string `"é"`
(bytes `[195, 169]`) with the positive maximum byte length 1, the iterator
never exhausts its data: it yields the empty piece forever, so the
sequence of pieces is not finite and no concatenation of yielded pieces
reconstructs the input. -/
theorem C2_counterexample_nontermination : ¬ chunkTerminates [195, 169] 1 := by
  rintro ⟨fuel, hf⟩
  rw [chunkRun_stuck_on_wide_char fuel] at hf
  simp at hf

theorem no_newline_between_fcb_and_max (data : List Nat) (maxB : Nat)
    (hv : validShape data = true) (_hlen : maxB ≤ data.length) :
    ∀ k, find_char_boundary_before_idx data maxB ≤ k → k < maxB →
      data.get? k ≠ some 10 := by
  intro k hk1 hk2 hg
  have hb : isCharBoundary data k = true :=
    isCharBoundary_of_noncont data k 10 hg (by decide)
  have hle1 : k ≤ find_char_boundary_before_idx data maxB :=
    fcb_ge data maxB k hb (by omega)
  have hb2 : isCharBoundary data (k + 1) = true :=
    isCharBoundary_after_ascii data.length data le_rfl hv k 10 hg (by omega)
  have hle2 : k + 1 ≤ find_char_boundary_before_idx data maxB :=
    fcb_ge data maxB (k + 1) hb2 (by omega)
  omega

theorem rfind_take_fcb_eq_take_max (data : List Nat) (maxB : Nat)
    (hv : validShape data = true) (hlen : maxB ≤ data.length) :
    rfind_newline (data.take (find_char_boundary_before_idx data maxB))
      = rfind_newline (data.take maxB) := by
  have hfle : find_char_boundary_before_idx data maxB ≤ maxB := fcb_le data maxB
  cases hm : rfind_newline (data.take maxB) with
  | some j =>
    have hjlt : j < maxB := by
      have := rfind_newline_lt_length _ j hm
      rw [List.length_take] at this
      omega
    have hgj : data.get? j = some 10 := by
      have := rfind_newline_mem _ j hm
      rwa [List.get?_take hjlt] at this
    have hjfcb : j < find_char_boundary_before_idx data maxB := by
      by_contra hcon
      exact no_newline_between_fcb_and_max data maxB hv hlen j (by omega) hjlt hgj
    cases hs : rfind_newline (data.take (find_char_boundary_before_idx data maxB)) with
    | none =>
      exfalso
      have := rfind_newline_none _ hs j
      rw [List.get?_take hjfcb] at this
      exact this hgj
    | some i =>
      have hilt : i < find_char_boundary_before_idx data maxB := by
        have := rfind_newline_lt_length _ i hs
        rw [List.length_take] at this
        omega
      have hgi : data.get? i = some 10 := by
        have := rfind_newline_mem _ i hs
        rwa [List.get?_take hilt] at this
      congr 1
      rcases Nat.lt_trichotomy i j with hij | hij | hij
      · exfalso
        apply rfind_newline_last _ i hs j hij
        rwa [List.get?_take hjfcb]
      · exact hij
      · exfalso
        apply rfind_newline_last _ j hm i hij
        rwa [List.get?_take (by omega)]
  | none =>
    cases hs : rfind_newline (data.take (find_char_boundary_before_idx data maxB)) with
    | none => rfl
    | some i =>
      exfalso
      have hilt : i < find_char_boundary_before_idx data maxB := by
        have := rfind_newline_lt_length _ i hs
        rw [List.length_take] at this
        omega
      have hgi : data.get? i = some 10 := by
        have := rfind_newline_mem _ i hs
        rwa [List.get?_take hilt] at this
      have := rfind_newline_none _ hm i
      rw [List.get?_take (by omega)] at this
      exact this hgi

/-- C8: when the remaining data is at least `max` bytes (the split branch of
`NewlineScaledChunkIterator::next`), the split point is chosen right after
the last newline within the first `max` bytes if one exists — the newline
stays the last byte of the yielded piece — and otherwise at the largest
UTF-8 character boundary at most `max` bytes in. -/
theorem C8_split_point_choice (data : List Nat) (maxB : Nat)
    (hv : validShape data = true) (hlen : maxB ≤ data.length)
    (hne : data ≠ []) :
    (∀ j, rfind_newline (data.take maxB) = some j →
      chunkNext data maxB = some (data.take (j + 1), data.drop (j + 1)) ∧
      data.get? j = some 10 ∧
      (data.take (j + 1)).get? j = some 10 ∧
      (∀ k, j < k → k < maxB → data.get? k ≠ some 10)) ∧
    (rfind_newline (data.take maxB) = none →
      chunkNext data maxB
        = some (data.take (find_char_boundary_before_idx data maxB),
                data.drop (find_char_boundary_before_idx data maxB)) ∧
      isCharBoundary data (find_char_boundary_before_idx data maxB) = true ∧
      (∀ k, k ≤ maxB → isCharBoundary data k = true →
        k ≤ find_char_boundary_before_idx data maxB)) := by
  have hlen0 : ¬ data.length = 0 := by
    intro h
    exact hne (List.eq_nil_of_length_eq_zero h)
  have h1 : ¬ data.length < maxB := by omega
  have hsplit := chunkNext_eq_split data maxB hlen0 h1
  have hfeq := rfind_take_fcb_eq_take_max data maxB hv hlen
  constructor
  · intro j hm
    have hsi : splitIndex data maxB = j + 1 := by
      unfold splitIndex
      rw [hfeq, hm]
    have hjlt : j < maxB := by
      have := rfind_newline_lt_length _ j hm
      rw [List.length_take] at this
      omega
    have hgj : data.get? j = some 10 := by
      have := rfind_newline_mem _ j hm
      rwa [List.get?_take hjlt] at this
    refine ⟨by rw [hsplit, hsi], hgj, ?_, ?_⟩
    · rw [List.get?_take (by omega)]
      exact hgj
    · intro k hk1 hk2 hgk
      apply rfind_newline_last _ j hm k hk1
      rwa [List.get?_take hk2]
  · intro hm
    have hsi : splitIndex data maxB = find_char_boundary_before_idx data maxB := by
      unfold splitIndex
      rw [hfeq, hm]
    exact ⟨by rw [hsplit, hsi], fcb_isBoundary data maxB,
      fun k hk1 hk2 => fcb_ge data maxB k hk2 hk1⟩

/-- C8 witness: `ChunkSplitter("line1\nline2\nline3", 7)` yields
`"line1\n"` first (split right after the newline at byte index 5), leaving
`"line2\nline3"`. -/
theorem C8_split_point_choice_witness :
    chunkNext [108, 105, 110, 101, 49, 10, 108, 105, 110, 101, 50, 10, 108, 105, 110, 101, 51] 7
      = some ([108, 105, 110, 101, 49, 10],
              [108, 105, 110, 101, 50, 10, 108, 105, 110, 101, 51]) ∧
    [108, 105, 110, 101, 49, 10, 108, 105, 110, 101, 50, 10, 108, 105, 110, 101, 51].get? 5
      = some 10 := by
  have h := (C8_split_point_choice
    [108, 105, 110, 101, 49, 10, 108, 105, 110, 101, 50, 10, 108, 105, 110, 101, 51] 7
    (by decide) (by decide) (by decide)).1 5 (by decide)
  exact ⟨h.1, h.2.1⟩

/-- `ANDROID_LOG_ENTRY_MAX_PAYLOAD` from `src/pmsg.rs`. -/
def ANDROID_LOG_ENTRY_MAX_PAYLOAD : Nat := 4068

/-- `ANDROID_LOG_PMSG_SEQUENCE_INCREMENT` from `src/pmsg.rs`. -/
def ANDROID_LOG_PMSG_SEQUENCE_INCREMENT : Nat := 1000

/-- `ANDROID_LOG_PMSG_MAX_SEQUENCE` from `src/pmsg.rs`. -/
def ANDROID_LOG_PMSG_MAX_SEQUENCE : Nat := 256000

/-- `DUMMY_UID` from `src/pmsg.rs`. -/
def DUMMY_UID : Nat := 0

/-- `ANDROID_LOG_MAGIC_CHAR` from `src/pmsg.rs` (the byte of the letter
l). -/
def ANDROID_LOG_MAGIC_CHAR : Nat := 108

/-- `Record` from the crate (`src/lib.rs` / `src/logger.rs`): the wall-clock
timestamp is represented by its derived wire fields, seconds (already
truncated to `u32` by `as u32`) and sub-second nanoseconds; `tag` and
`message` are UTF-8 byte strings. -/
structure Record where
  pid : Nat
  thread_id : Nat
  buffer_id : Nat
  priority : Nat
  tag : List Nat
  message : List Nat
  ts_secs : Nat
  ts_nanos : Nat

/-- `write_pmsg_header` from `src/pmsg.rs`: magic marker, packet length,
uid and pid, little-endian. -/
def write_pmsg_header (packet_len uid pid : Nat) : List Nat :=
  [ANDROID_LOG_MAGIC_CHAR] ++ u16le packet_len ++ u16le uid ++ u16le pid

/-- `write_log_header` from `src/pmsg.rs`: buffer id, thread id, seconds and
sub-second nanoseconds.  The nanoseconds field deliberately carries the
real nanoseconds, not the native writer's sequence number (see the comment
in the source). -/
def write_log_header (buffer_id thread_id ts_secs ts_nanos : Nat) : List Nat :=
  [buffer_id % 256] ++ u16le thread_id ++ u32le ts_secs ++ u32le ts_nanos

/-- `write_payload` from `src/pmsg.rs`: priority byte, NUL-terminated tag,
NUL-terminated message chunk. -/
def write_payload (priority : Nat) (tag msg_part : List Nat) : List Nat :=
  [priority % 256] ++ tag ++ [0] ++ msg_part ++ [0]

/-- `log_pmsg_packet` from `src/pmsg.rs`: one pmsg frame for one message
chunk.  `payload_len` is cast to `u16` (`as u16`), and the `u16` additions
wrap modulo `2^16`. -/
def log_pmsg_packet (r : Record) (msg_part : List Nat) : List Nat :=
  let payload_len := (1 + r.tag.length + 1 + msg_part.length + 1) % 65536
  let packet_len := (7 + 11 + payload_len) % 65536
  write_pmsg_header packet_len DUMMY_UID r.pid
    ++ write_log_header r.buffer_id r.thread_id r.ts_secs r.ts_nanos
    ++ write_payload r.priority r.tag msg_part

/-- The chunk loop of `log` from `src/pmsg.rs`: for each chunk, compute
`sequence_nr = idx * 1000` and return early (dropping all remaining
chunks) once it reaches the maximum sequence; otherwise emit the chunk's
packet. -/
def pmsg_log_go (r : Record) : Nat → List (List Nat) → List (List Nat)
  | _, [] => []
  | idx, chunk :: rest =>
    if idx * ANDROID_LOG_PMSG_SEQUENCE_INCREMENT ≥ ANDROID_LOG_PMSG_MAX_SEQUENCE then []
    else log_pmsg_packet r chunk :: pmsg_log_go r (idx + 1) rest

/-- `log` from `src/pmsg.rs`: split the message with
`NewlineScaledChunkIterator` at the maximum payload size and emit one pmsg
packet per chunk, subject to the sequence cutoff.  The pmsg frames written
to the device, in order. -/
def pmsg_log (r : Record) : List (List Nat) :=
  pmsg_log_go r 0 (chunkRun r.message.length r.message ANDROID_LOG_ENTRY_MAX_PAYLOAD).1

theorem pmsg_log_go_eq_take (r : Record) :
    ∀ (chunks : List (List Nat)) (idx : Nat), idx ≤ 256 →
      pmsg_log_go r idx chunks
        = (chunks.take (256 - idx)).map (log_pmsg_packet r) := by
  intro chunks
  induction chunks with
  | nil => intro idx _; simp [pmsg_log_go]
  | cons c rest ih =>
    intro idx hidx
    unfold pmsg_log_go
    by_cases hseq : idx * ANDROID_LOG_PMSG_SEQUENCE_INCREMENT ≥ ANDROID_LOG_PMSG_MAX_SEQUENCE
    · rw [if_pos hseq]
      have : idx = 256 := by
        simp [ANDROID_LOG_PMSG_SEQUENCE_INCREMENT, ANDROID_LOG_PMSG_MAX_SEQUENCE] at hseq
        omega
      subst this
      simp
    · rw [if_neg hseq]
      have hlt : idx < 256 := by
        simp [ANDROID_LOG_PMSG_SEQUENCE_INCREMENT, ANDROID_LOG_PMSG_MAX_SEQUENCE] at hseq
        omega
      obtain ⟨d, hd⟩ : ∃ d, 256 - idx = d + 1 := ⟨256 - idx - 1, by omega⟩
      rw [hd, List.take_succ_cons, List.map_cons, ih (idx + 1) (by omega)]
      have : 256 - (idx + 1) = d := by omega
      rw [this]

theorem log_pmsg_packet_nanos_field (r : Record) (msg_part : List Nat) :
    ((log_pmsg_packet r msg_part).drop 14).take 4 = u32le r.ts_nanos := by
  simp [log_pmsg_packet, write_pmsg_header, write_log_header, write_payload,
    u16le, u32le, ANDROID_LOG_MAGIC_CHAR, DUMMY_UID, List.drop_succ_cons]

/-- C6 (amended): the chunk loop's sequence counter steps by 1000 per
chunk, but it is used only as a cutoff: exactly the first 256 chunks
(sequence values `0, 1000, ..., 255000 < 256000`) produce a pmsg packet
and every later chunk is silently dropped; the nanosecond field of each
written packet's inner header (bytes 14..17) carries the record's real
sub-second nanoseconds — identical in every chunk's packet — not the
chunk's sequence number. -/
theorem C6_sequence_cutoff_real_nanos (r : Record) :
    pmsg_log r
      = ((chunkRun r.message.length r.message ANDROID_LOG_ENTRY_MAX_PAYLOAD).1.take 256).map
          (log_pmsg_packet r) ∧
    (∀ p ∈ pmsg_log r, (p.drop 14).take 4 = u32le r.ts_nanos) := by
  have hgo := pmsg_log_go_eq_take r
    (chunkRun r.message.length r.message ANDROID_LOG_ENTRY_MAX_PAYLOAD).1 0 (by omega)
  constructor
  · unfold pmsg_log
    simpa using hgo
  · intro p hp
    unfold pmsg_log at hp
    rw [hgo] at hp
    obtain ⟨c, -, hc⟩ := List.mem_map.mp hp
    rw [← hc]
    exact log_pmsg_packet_nanos_field r c

/-- C6 witness: for a concrete one-chunk record with nanoseconds 7, the
emitted packet is a member of the stream and its nanosecond field holds
the little-endian encoding of 7. -/
theorem C6_sequence_cutoff_real_nanos_witness :
    ((log_pmsg_packet ⟨1, 2, 0, 4, [116], [98], 5, 7⟩ [98]).drop 14).take 4
      = u32le 7 :=
  (C6_sequence_cutoff_real_nanos ⟨1, 2, 0, 4, [116], [98], 5, 7⟩).2
    (log_pmsg_packet ⟨1, 2, 0, 4, [116], [98], 5, 7⟩ [98]) (by decide)

/-- C6 counterexample: for the record with sub-second nanoseconds 7 and the
one-byte message `"a"`, chunk 0's inner-header nanosecond field holds 7,
not the sequence value `0 * 1000` the claim asserts. -/
theorem C6_counterexample_nanos_not_sequence :
    ((pmsg_log ⟨1, 2, 0, 4, [116], [97], 5, 7⟩).get? 0).map
        (fun p => (p.drop 14).take 4)
      ≠ some (u32le (0 * 1000)) := by
  decide

theorem log_pmsg_packet_bytes (r : Record) (msg_part : List Nat) :
    log_pmsg_packet r msg_part
      = 108
        :: ((7 + 11 + ((1 + r.tag.length + 1 + msg_part.length + 1) % 65536)) % 65536) % 256
        :: ((7 + 11 + ((1 + r.tag.length + 1 + msg_part.length + 1) % 65536)) % 65536) / 256 % 256
        :: 0 :: 0 :: r.pid % 256 :: r.pid / 256 % 256
        :: (write_log_header r.buffer_id r.thread_id r.ts_secs r.ts_nanos
            ++ write_payload r.priority r.tag msg_part) := by
  simp [log_pmsg_packet, write_pmsg_header, u16le, ANDROID_LOG_MAGIC_CHAR, DUMMY_UID]

theorem log_pmsg_packet_length (r : Record) (msg_part : List Nat) :
    (log_pmsg_packet r msg_part).length
      = 7 + 11 + (1 + r.tag.length + 1 + msg_part.length + 1) := by
  simp [log_pmsg_packet, write_pmsg_header, write_log_header, write_payload,
    u16le, u32le]
  omega

/-- C7 (amended): every pmsg frame starts with the outer header — magic
byte `'l'` (108), `packet_len` as little-endian `u16`, the fixed dummy
`uid = 0`, then the record's pid — where
`packet_len = (7 + 11 + payload_len) mod 2^16` with
`payload_len = (1 + tag_len + 1 + chunk_len + 1) mod 2^16`; the frame's
total byte count is `7 + 11 + (1 + tag_len + 1 + chunk_len + 1)`, and
whenever that total fits in a `u16` (at most 65535 — always the case for
the tags and 4068-byte-bounded chunks the logger produces) the stored
`packet_len` equals it, making the frame self-describing. -/
theorem C7_pmsg_outer_header (r : Record) (msg_part : List Nat) :
    ((log_pmsg_packet r msg_part).get? 0 = some 108 ∧
     (log_pmsg_packet r msg_part).get? 1
        = some ((((7 + 11 + ((1 + r.tag.length + 1 + msg_part.length + 1) % 65536)) % 65536)) % 256) ∧
     (log_pmsg_packet r msg_part).get? 2
        = some ((((7 + 11 + ((1 + r.tag.length + 1 + msg_part.length + 1) % 65536)) % 65536)) / 256 % 256) ∧
     (log_pmsg_packet r msg_part).get? 3 = some 0 ∧
     (log_pmsg_packet r msg_part).get? 4 = some 0 ∧
     (log_pmsg_packet r msg_part).get? 5 = some (r.pid % 256) ∧
     (log_pmsg_packet r msg_part).get? 6 = some (r.pid / 256 % 256)) ∧
    (log_pmsg_packet r msg_part).length
      = 7 + 11 + (1 + r.tag.length + 1 + msg_part.length + 1) ∧
    (7 + 11 + (1 + r.tag.length + 1 + msg_part.length + 1) ≤ 65535 →
      ((log_pmsg_packet r msg_part).get? 1).getD 0
          + 256 * ((log_pmsg_packet r msg_part).get? 2).getD 0
        = (log_pmsg_packet r msg_part).length) := by
  refine ⟨?_, log_pmsg_packet_length r msg_part, ?_⟩
  · rw [log_pmsg_packet_bytes]
    exact ⟨rfl, rfl, rfl, rfl, rfl, rfl, rfl⟩
  · intro hlt
    rw [log_pmsg_packet_length, log_pmsg_packet_bytes]
    simp only [List.get?_cons_succ, List.get?_cons_zero, Option.getD_some]
    omega

/-- C7 witness: for a concrete record with a 4-byte tag and a 4-byte chunk,
the frame starts with `'l'`, the little-endian packet length 29, uid 0 and
pid 258, and byte count 29 matches the stored packet length. -/
theorem C7_pmsg_outer_header_witness :
    log_pmsg_packet ⟨258, 2, 0, 4, [116, 101, 115, 116], [5, 6], 5, 6⟩ [97, 98, 99, 100]
      = [108, 29, 0, 0, 0, 2, 1, 0, 2, 0, 5, 0, 0, 0, 6, 0, 0, 0, 4,
         116, 101, 115, 116, 0, 97, 98, 99, 100, 0] ∧
    ((log_pmsg_packet ⟨258, 2, 0, 4, [116, 101, 115, 116], [5, 6], 5, 6⟩
        [97, 98, 99, 100]).get? 1).getD 0
      + 256 * ((log_pmsg_packet ⟨258, 2, 0, 4, [116, 101, 115, 116], [5, 6], 5, 6⟩
        [97, 98, 99, 100]).get? 2).getD 0
      = (log_pmsg_packet ⟨258, 2, 0, 4, [116, 101, 115, 116], [5, 6], 5, 6⟩
        [97, 98, 99, 100]).length := by
  constructor
  · decide
  · exact (C7_pmsg_outer_header ⟨258, 2, 0, 4, [116, 101, 115, 116], [5, 6], 5, 6⟩
      [97, 98, 99, 100]).2.2 (by decide)

theorem packet_len_wrap_of_length (T : List Nat) (h : T.length = 65515) :
    ((log_pmsg_packet ⟨1, 2, 0, 4, T, [], 5, 6⟩ []).get? 1).getD 0
        + 256 * ((log_pmsg_packet ⟨1, 2, 0, 4, T, [], 5, 6⟩ []).get? 2).getD 0
      ≠ (log_pmsg_packet ⟨1, 2, 0, 4, T, [], 5, 6⟩ []).length := by
  have hbytes := log_pmsg_packet_bytes ⟨1, 2, 0, 4, T, [], 5, 6⟩ []
  have hlen := log_pmsg_packet_length ⟨1, 2, 0, 4, T, [], 5, 6⟩ []
  simp only [] at hbytes hlen
  rw [h, List.length_nil] at hbytes hlen
  have hnum : (7 + 11 + ((1 + 65515 + 1 + 0 + 1) % 65536)) % 65536 = 0 := by norm_num
  rw [hnum] at hbytes
  rw [hlen, hbytes]
  show (0 % 256 : Nat) + 256 * (0 / 256 % 256) ≠ 7 + 11 + (1 + 65515 + 1 + 0 + 1)
  norm_num

/-- C7 counterexample: with a 65515-byte tag and an empty chunk the frame
is 65536 bytes long, the `u16` packet length wraps to 0, and the frame is
no longer self-describing, so the claim's universally quantified
`packet_len = total frame length` fails. -/
theorem C7_counterexample_packet_len_wraps :
    ((log_pmsg_packet ⟨1, 2, 0, 4, List.replicate 65515 97, [], 5, 6⟩ []).get? 1).getD 0
        + 256 * ((log_pmsg_packet ⟨1, 2, 0, 4, List.replicate 65515 97, [], 5, 6⟩ []).get? 2).getD 0
      ≠ (log_pmsg_packet ⟨1, 2, 0, 4, List.replicate 65515 97, [], 5, 6⟩ []).length :=
  packet_len_wrap_of_length (List.replicate 65515 97) (by rw [List.length_replicate])
